import Mathlib

/-!
# Verification of the max-pooling core (pooling.cpp)

A shallow embedding of the four operators in `src/bits/pooling.cpp`:

* `maxPooling_cpu`            — sequential forward reducer,
* `maxPooling_gpu_kernel` / `maxPooling_gpu`   — parallel forward reducer,
* `maxPoolingBackward_cpu`    — sequential backward scatterer,
* `maxPoolingBackward_gpu_kernel` / `maxPoolingBackward_gpu` — parallel
  backward scatterer.

Buffers are modelled as total functions `ℕ → ℚ` (exact rationals stand in
for IEEE scalars: the kernels only compare, take maxima and add, so every
operation is exact; the "up to floating-point addition order" caveats of
the specification disappear at ℚ, where addition is associative).  A write
through a pointer becomes `Function.update`; the per-channel pointer
advances (`data += width*height`, `pooled += pooledWidth*pooledHeight`)
become explicit base offsets.  The serial C loop nests become `List.foldl`
over `List.range` / `List.range'`; the CUDA grid of the parallel backend
becomes a fold of the one-thread kernel over all thread indices, which is
the exact observable semantics of the launch for the forward kernel (each
thread owns its output slot) and one admissible interleaving of the atomic
adds for the backward kernel (at ℚ all interleavings agree).

`FLT_MAX` and `DBL_MAX` are the exact rational values of the largest
finite IEEE single- and double-precision numbers; the kernels seed their
running maximum with `-FLT_MAX`, exactly as the source does for both
scalar instantiations.
-/

/-- Largest finite IEEE-754 single-precision value, `(2 - 2^-23) * 2^127`
(the exact integer `2^128 - 2^104`, written as a literal so that concrete
instances reduce). -/
def FLT_MAX : ℚ := 340282346638528859811704183484516925440

/-- Largest finite IEEE-754 double-precision value, `(2 - 2^-52) * 2^1023`
(the exact integer `2^1024 - 2^971`). -/
def DBL_MAX : ℚ := 179769313486231570814527423731704356798070567525844996598917476803157260780028538760589558632766878171540458953514382464234321326889464182768467546703537516986049910576551282076245490090389328944075868508455133942304583236903222948165808559332123348274797826204144723168738177180919299881250404026184124858368

/-- `maxPooling_cpu` from pooling.cpp (lines 17-47): sequential forward
max-pooling.  For each channel `c`, output row `ph` and output column `pw`
it scans the clipped window and repeatedly max-combines into the pooled
cell, which therefore starts from whatever the pooled buffer already
holds.  The per-channel pointer advances are modelled by the base offsets
`c * (width*height)` and `c * (pooledWidth*pooledHeight)`. -/
def maxPooling_cpu (pooled data : ℕ → ℚ)
    (width height depth poolSize poolStride : ℕ) : ℕ → ℚ :=
  let pooledWidth := (width - poolSize) / poolStride + 1
  let pooledHeight := (height - poolSize) / poolStride + 1
  (List.range depth).foldl (fun buf c =>
    (List.range pooledHeight).foldl (fun buf ph =>
      (List.range pooledWidth).foldl (fun buf pw =>
        let hstart := ph * poolStride
        let wstart := pw * poolStride
        let hend := min (hstart + poolSize) height
        let wend := min (wstart + poolSize) width
        (List.range' hstart (hend - hstart)).foldl (fun buf hh =>
          (List.range' wstart (wend - wstart)).foldl (fun buf ww =>
            Function.update buf (c * (pooledWidth * pooledHeight) + (ph * pooledWidth + pw))
              (max (buf (c * (pooledWidth * pooledHeight) + (ph * pooledWidth + pw)))
                   (data (c * (width * height) + (hh * width + ww))))) buf) buf)
        buf) buf) pooled

/-- `maxPooling_gpu_kernel` from pooling.cpp (lines 71-100): one parallel
work unit of the forward pass.  Guards on `index < nthreads`, decodes the
flat index into `(n, c, ph, pw)`, seeds the running maximum with
`-FLT_MAX` (for both scalar instantiations), scans the clipped window of
`bottom_data` (advanced by `(n*channels+c)*height*width`) and overwrites
`top_data[index]`. -/
def maxPooling_gpu_kernel (nthreads : ℕ) (bottom_data : ℕ → ℚ)
    (num channels height width pooled_height pooled_width ksize stride : ℕ)
    (top_data : ℕ → ℚ) (index : ℕ) : ℕ → ℚ :=
  if index < nthreads then
    let pw := index % pooled_width
    let ph := (index / pooled_width) % pooled_height
    let c := (index / pooled_width / pooled_height) % channels
    let n := index / pooled_width / pooled_height / channels
    let hstart := ph * stride
    let hend := min (hstart + ksize) height
    let wstart := pw * stride
    let wend := min (wstart + ksize) width
    let maxval := (List.range' hstart (hend - hstart)).foldl (fun m hh =>
      (List.range' wstart (wend - wstart)).foldl (fun m ww =>
        max m (bottom_data ((n * channels + c) * height * width + (hh * width + ww)))) m)
      (-FLT_MAX)
    Function.update top_data index maxval
  else top_data

/-- `maxPooling_gpu` from pooling.cpp (lines 102-116): parallel forward
host wrapper.  Computes the pooled dimensions, the work count
`pooledWidth * pooledHeight * depth`, and launches one kernel work unit
per flat index (`num = 1`); the fold realises the grid, whose units write
disjoint output slots. -/
def maxPooling_gpu (pooled data : ℕ → ℚ)
    (width height depth poolSize poolStride : ℕ) : ℕ → ℚ :=
  let pooledWidth := (width - poolSize) / poolStride + 1
  let pooledHeight := (height - poolSize) / poolStride + 1
  let count := pooledWidth * pooledHeight * depth
  (List.range count).foldl (fun top index =>
    maxPooling_gpu_kernel count data 1 depth height width
      pooledHeight pooledWidth poolSize poolStride top index) pooled

/-- `maxPoolingBackward_cpu` from pooling.cpp (lines 140-179): sequential
backward pass.  For each output cell it re-scans the window keeping
`(bestValue, bestIndex)` under strict `>` (seeded with the window's first
element), then accumulates `dzdy` of the cell into `dzdx` at the winning
plane-local index, offset by the channel base `c * (width*height)`. -/
def maxPoolingBackward_cpu (dzdx data dzdy : ℕ → ℚ)
    (width height depth poolSize poolStride : ℕ) : ℕ → ℚ :=
  let pooledWidth := (width - poolSize) / poolStride + 1
  let pooledHeight := (height - poolSize) / poolStride + 1
  (List.range depth).foldl (fun buf c =>
    (List.range pooledHeight).foldl (fun buf ph =>
      (List.range pooledWidth).foldl (fun buf pw =>
        let hstart := ph * poolStride
        let wstart := pw * poolStride
        let hend := min (hstart + poolSize) height
        let wend := min (wstart + poolSize) width
        let best :=
          (List.range' hstart (hend - hstart)).foldl (fun s hh =>
            (List.range' wstart (wend - wstart)).foldl (fun s ww =>
              let x := data (c * (width * height) + (hh * width + ww))
              if x > s.1 then (x, hh * width + ww) else s) s)
            (data (c * (width * height) + (hstart * width + wstart)),
             hstart * width + wstart)
        Function.update buf (c * (width * height) + best.2)
          (buf (c * (width * height) + best.2)
            + dzdy (c * (pooledWidth * pooledHeight) + (ph * pooledWidth + pw))))
        buf) buf) dzdx

/-- `maxPoolingBackward_gpu_kernel` from pooling.cpp (lines 205-247): one
parallel work unit of the backward pass.  Guards on `index < nthreads`,
decodes the flat index, re-finds the arg-max of the window of
`bottom_data` (advanced by `(n*channels+c)*height*width`) under strict `>`
seeded with `(-FLT_MAX, 0)`, then atomically adds `top_diff[index]` into
`bottom_diff[bestIndex]`.  Note that the source advances `bottom_data` by
the channel base but applies `bestIndex` to `bottom_diff` without any such
offset — this embedding reproduces that faithfully. -/
def maxPoolingBackward_gpu_kernel (nthreads : ℕ) (bottom_data top_diff : ℕ → ℚ)
    (num channels height width pooled_height pooled_width ksize stride : ℕ)
    (bottom_diff : ℕ → ℚ) (index : ℕ) : ℕ → ℚ :=
  if index < nthreads then
    let pw := index % pooled_width
    let ph := (index / pooled_width) % pooled_height
    let c := (index / pooled_width / pooled_height) % channels
    let n := index / pooled_width / pooled_height / channels
    let hstart := ph * stride
    let hend := min (hstart + ksize) height
    let wstart := pw * stride
    let wend := min (wstart + ksize) width
    let best :=
      (List.range' hstart (hend - hstart)).foldl (fun s hh =>
        (List.range' wstart (wend - wstart)).foldl (fun s ww =>
          let x := bottom_data ((n * channels + c) * height * width + (hh * width + ww))
          if x > s.1 then (x, hh * width + ww) else s) s)
        (-FLT_MAX, 0)
    Function.update bottom_diff best.2 (bottom_diff best.2 + top_diff index)
  else bottom_diff

/-- `maxPoolingBackward_gpu` from pooling.cpp (lines 249-264): parallel
backward host wrapper, launching one kernel work unit per flat output
index (`num = 1`).  The fold realises the grid in index order; since the
scalar model is exact, this is equivalent to any interleaving of the
atomic adds. -/
def maxPoolingBackward_gpu (dzdx data dzdy : ℕ → ℚ)
    (width height depth poolSize poolStride : ℕ) : ℕ → ℚ :=
  let pooledWidth := (width - poolSize) / poolStride + 1
  let pooledHeight := (height - poolSize) / poolStride + 1
  let count := pooledWidth * pooledHeight * depth
  (List.range count).foldl (fun bottom index =>
    maxPoolingBackward_gpu_kernel count data dzdy 1 depth height width
      pooledHeight pooledWidth poolSize poolStride bottom index) dzdx

/-! ## Specification-side geometry and window vocabulary -/

/-- Spec shape law (§3, §8.1): the pooled extent of one dimension,
`(n - k)/s + 1` by integer floor division. -/
def pooledDim (n k s : ℕ) : ℕ := (n - k) / s + 1

/-- Flat index of output cell `(c, ph, pw)` in a channel-major pooled
volume with plane `pW * pH`, as used by every operator of the core. -/
def encodeCell (pW pH c ph pw : ℕ) : ℕ := c * (pW * pH) + (ph * pW + pw)

/-- The plane-local indices `hh * W + ww` of a window
`[hstart, hend) × [wstart, wend)`, in row-major scan order (rows outer,
columns inner) — the order every operator scans in. -/
def windowScan (W hstart hend wstart wend : ℕ) : List ℕ :=
  (List.range' hstart (hend - hstart)).foldr
    (fun hh acc =>
      ((List.range' wstart (wend - wstart)).map (fun ww => hh * W + ww)) ++ acc) []

/-- Scan order of the clipped window of output cell `(ph, pw)` (§4.1):
`hstart = ph*s`, `wstart = pw*s`, ends clipped to the volume boundary. -/
def cellScan (W H k s ph pw : ℕ) : List ℕ :=
  windowScan W (ph * s) (min (ph * s + k) H) (pw * s) (min (pw * s + k) W)

/-- The maximum that the spec assigns to a window (§4.2): the max of the
scanned values, seeded from the window's first element (`0` only for an
empty scan, which valid geometry rules out). -/
def windowMax (vals : ℕ → ℚ) : List ℕ → ℚ
  | [] => 0
  | x :: t => t.foldl (fun a j => max a (vals j)) (vals x)

/-- The arg-max location the spec prescribes for the backward pass (§4.4):
the first element of the scan, in row-major order, whose value attains the
window maximum (ties therefore go to the earliest element). -/
def firstArgMax (vals : ℕ → ℚ) : List ℕ → Option ℕ
  | [] => none
  | x :: t =>
    (x :: t).find? (fun i => decide (vals i = t.foldl (fun a j => max a (vals j)) (vals x)))

/-- The arg-max index that `maxPoolingBackward_cpu` computes for output
cell `(c, ph, pw)`: the source's `(bestValue, bestIndex)` loop (seeded
with the window's first element, strict `>`), written over the flat
row-major scan.  The nested loop of the operator is proved equal to this
flat form. -/
def bestIndexCpu (data : ℕ → ℚ) (W H k s c ph pw : ℕ) : ℕ :=
  ((cellScan W H k s ph pw).foldl
    (fun st i => if data (c * (W * H) + i) > st.1 then (data (c * (W * H) + i), i) else st)
    (data (c * (W * H) + (ph * s * W + pw * s)), ph * s * W + pw * s)).2

/-- The arg-max index that `maxPoolingBackward_gpu_kernel` computes for
flat thread index `index`: the source's loop seeded with `(-FLT_MAX, 0)`,
written over the flat row-major scan of the decoded cell's window.  Note
the result is the plane-local index, exactly as the kernel applies it to
`bottom_diff` (without a channel offset). -/
def bestIndexGpu (data : ℕ → ℚ) (W H d k s index : ℕ) : ℕ :=
  let pW := pooledDim W k s
  let pH := pooledDim H k s
  let pw := index % pW
  let ph := (index / pW) % pH
  let c := (index / pW / pH) % d
  let n := index / pW / pH / d
  ((cellScan W H k s ph pw).foldl
    (fun st i => if data ((n * d + c) * H * W + i) > st.1
      then (data ((n * d + c) * H * W + i), i) else st)
    (-FLT_MAX, 0)).2

/-! ## Generic lemmas about buffer folds

Each loop iteration of the operators transforms the output buffer; the
three lemmas below characterise a fold of such transformers at a single
index `j`: when no iteration writes `j` (frame), when exactly one does
(pick), and when every iteration adds something (possibly zero) at `j`
(additive accumulation). -/

theorem range_foldl_frame (F : (ℕ → ℚ) → ℕ → (ℕ → ℚ)) (j : ℕ) :
    ∀ n : ℕ, (∀ buf i, i < n → F buf i j = buf j) →
      ∀ buf, ((List.range n).foldl F buf) j = buf j := by
  intro n
  induction n with
  | zero => intro _ buf; rfl
  | succ n ih =>
    intro hF buf
    rw [List.range_succ, List.foldl_append, List.foldl_cons, List.foldl_nil,
      hF _ n (Nat.lt_succ_self n)]
    exact ih (fun buf i hi => hF buf i (Nat.lt_succ_of_lt hi)) buf

theorem range_foldl_pick (F : (ℕ → ℚ) → ℕ → (ℕ → ℚ)) (j : ℕ) (φ : ℚ → ℚ) :
    ∀ n i₀ : ℕ, i₀ < n →
      (∀ buf i, i < n → i ≠ i₀ → F buf i j = buf j) →
      (∀ buf, F buf i₀ j = φ (buf j)) →
      ∀ buf, ((List.range n).foldl F buf) j = φ (buf j) := by
  intro n
  induction n with
  | zero => intro i₀ h; exact absurd h (Nat.not_lt_zero i₀)
  | succ n ih =>
    intro i₀ hi₀ hframe hpick buf
    rw [List.range_succ, List.foldl_append, List.foldl_cons, List.foldl_nil]
    by_cases hn : i₀ = n
    · subst hn
      rw [hpick]
      congr 1
      exact range_foldl_frame F j i₀
        (fun buf i hi => hframe buf i (Nat.lt_succ_of_lt hi) (Nat.ne_of_lt hi)) buf
    · rw [hframe _ n (Nat.lt_succ_self n) (fun h => hn h.symm)]
      exact ih i₀ (Nat.lt_of_le_of_ne (Nat.lt_succ_iff.mp hi₀) hn)
        (fun buf i hi hne => hframe buf i (Nat.lt_succ_of_lt hi) hne) hpick buf

theorem range_foldl_add (F : (ℕ → ℚ) → ℕ → (ℕ → ℚ)) (j : ℕ) (δ : ℕ → ℚ) :
    ∀ n : ℕ, (∀ buf i, i < n → F buf i j = buf j + δ i) →
      ∀ buf, ((List.range n).foldl F buf) j = buf j + ∑ i in Finset.range n, δ i := by
  intro n
  induction n with
  | zero => intro _ buf; simp
  | succ n ih =>
    intro hF buf
    rw [List.range_succ, List.foldl_append, List.foldl_cons, List.foldl_nil,
      hF _ n (Nat.lt_succ_self n),
      ih (fun buf i hi => hF buf i (Nat.lt_succ_of_lt hi)) buf,
      Finset.sum_range_succ, add_assoc]

/-! ## Flattening the two nested window loops

All four operators scan a window with two nested loops (`h` outer, `w`
inner); `windowScan` is the flat list of visited plane-local indices, and
the lemmas below identify the nested fold with the flat one. -/

theorem foldl_hjoin {σ : Type} (cols : List ℕ) (e : ℕ → ℕ → ℕ) (g : σ → ℕ → σ) :
    ∀ (rows : List ℕ) (init : σ),
      ((rows.foldr (fun hh acc => (cols.map (e hh)) ++ acc) []).foldl g init)
        = rows.foldl (fun s hh => cols.foldl (fun s ww => g s (e hh ww)) s) init := by
  intro rows
  induction rows with
  | nil => intro init; rfl
  | cons hh rows ih =>
    intro init
    rw [List.foldr_cons, List.foldl_append, List.foldl_map, List.foldl_cons]
    exact ih _

theorem mem_hjoin {cols : List ℕ} {e : ℕ → ℕ → ℕ} :
    ∀ {rows : List ℕ} {x : ℕ},
      x ∈ rows.foldr (fun hh acc => (cols.map (e hh)) ++ acc) [] ↔
        ∃ hh ∈ rows, ∃ ww ∈ cols, x = e hh ww := by
  intro rows
  induction rows with
  | nil => simp
  | cons hh rows ih =>
    intro x
    simp only [List.foldr_cons, List.mem_append, List.mem_map, List.mem_cons, ih]
    constructor
    · rintro (⟨ww, hww, rfl⟩ | ⟨hh2, hmem, hx⟩)
      · exact ⟨hh, Or.inl rfl, ww, hww, rfl⟩
      · exact ⟨hh2, Or.inr hmem, hx⟩
    · rintro ⟨hh2, hh2mem | hh2mem, ww, hww, rfl⟩
      · exact Or.inl ⟨ww, hww, by rw [hh2mem]⟩
      · exact Or.inr ⟨hh2, hh2mem, ww, hww, rfl⟩

theorem foldl_windowScan {σ : Type} (W hs he ws we : ℕ) (g : σ → ℕ → σ) (init : σ) :
    (windowScan W hs he ws we).foldl g init
      = (List.range' hs (he - hs)).foldl (fun s hh =>
          (List.range' ws (we - ws)).foldl (fun s ww => g s (hh * W + ww)) s) init :=
  foldl_hjoin _ _ g _ init

theorem mem_windowScan {W hs he ws we x : ℕ} :
    x ∈ windowScan W hs he ws we ↔
      ∃ hh ∈ List.range' hs (he - hs), ∃ ww ∈ List.range' ws (we - ws), x = hh * W + ww :=
  mem_hjoin

/-! ## Lemmas about the running-maximum scan -/

theorem maxfold_distrib (vals : ℕ → ℚ) (l : List ℕ) :
    ∀ a b, l.foldl (fun x i => max x (vals i)) (max a b)
      = max a (l.foldl (fun x i => max x (vals i)) b) := by
  induction l with
  | nil => intro a b; rfl
  | cons i t ih =>
    intro a b
    rw [List.foldl_cons, List.foldl_cons, max_assoc, ih]

theorem le_maxfold (vals : ℕ → ℚ) (l : List ℕ) :
    ∀ v, v ≤ l.foldl (fun x i => max x (vals i)) v := by
  induction l with
  | nil => intro v; exact le_refl v
  | cons i t ih =>
    intro v
    rw [List.foldl_cons]
    exact le_trans (le_max_left v (vals i)) (ih _)

theorem maxfold_ub (vals : ℕ → ℚ) (l : List ℕ) :
    ∀ v i, i ∈ l → vals i ≤ l.foldl (fun x j => max x (vals j)) v := by
  induction l with
  | nil => intro v i hi; exact absurd hi (List.not_mem_nil i)
  | cons j t ih =>
    intro v i hi
    rw [List.foldl_cons]
    rcases List.mem_cons.mp hi with h | h
    · subst h
      exact le_trans (le_max_right v (vals i)) (le_maxfold vals t _)
    · exact ih _ i h

theorem maxfold_of_le (vals : ℕ → ℚ) (l : List ℕ) :
    ∀ v, (∀ i ∈ l, vals i ≤ v) → l.foldl (fun x i => max x (vals i)) v = v := by
  induction l with
  | nil => intro v _; rfl
  | cons i t ih =>
    intro v hv
    rw [List.foldl_cons, max_eq_left (hv i (List.mem_cons_self i t))]
    exact ih v (fun j hj => hv j (List.mem_cons_of_mem i hj))

theorem maxfold_mem (vals : ℕ → ℚ) (l : List ℕ) :
    ∀ v, l.foldl (fun x i => max x (vals i)) v = v
      ∨ ∃ i ∈ l, l.foldl (fun x j => max x (vals j)) v = vals i := by
  induction l with
  | nil => intro v; exact Or.inl rfl
  | cons i t ih =>
    intro v
    rw [List.foldl_cons]
    rcases ih (max v (vals i)) with h | ⟨j, hj, hjeq⟩
    · rcases max_cases v (vals i) with ⟨hmax, _⟩ | ⟨hmax, _⟩
      · exact Or.inl (by rw [h, hmax])
      · exact Or.inr ⟨i, List.mem_cons_self i t, by rw [h, hmax]⟩
    · exact Or.inr ⟨j, List.mem_cons_of_mem i hj, hjeq⟩

theorem maxfold_cons (vals : ℕ → ℚ) (x : ℕ) (t : List ℕ) (v : ℚ) :
    (x :: t).foldl (fun a i => max a (vals i)) v
      = max v (t.foldl (fun a i => max a (vals i)) (vals x)) := by
  rw [List.foldl_cons]
  exact maxfold_distrib vals t v (vals x)

theorem windowMax_cons (vals : ℕ → ℚ) (x : ℕ) (t : List ℕ) :
    windowMax vals (x :: t) = t.foldl (fun a i => max a (vals i)) (vals x) := rfl

theorem windowMax_mem (vals : ℕ → ℚ) (x : ℕ) (t : List ℕ) :
    ∃ i ∈ x :: t, windowMax vals (x :: t) = vals i := by
  rw [windowMax_cons]
  rcases maxfold_mem vals t (vals x) with h | ⟨j, hj, hjeq⟩
  · exact ⟨x, List.mem_cons_self x t, h⟩
  · exact ⟨j, List.mem_cons_of_mem x hj, hjeq⟩

theorem windowMax_ub (vals : ℕ → ℚ) (x : ℕ) (t : List ℕ) :
    ∀ i ∈ x :: t, vals i ≤ windowMax vals (x :: t) := by
  intro i hi
  rw [windowMax_cons]
  rcases List.mem_cons.mp hi with h | h
  · subst h
    exact le_maxfold vals t (vals i)
  · exact maxfold_ub vals t (vals x) i h

/-! ## Lemmas about the strict-greater arg-max scan -/

theorem argfold_fst (vals : ℕ → ℚ) (l : List ℕ) :
    ∀ (v : ℚ) (b : ℕ),
      (l.foldl (fun s i => if vals i > s.1 then (vals i, i) else s) (v, b)).1
        = l.foldl (fun a i => max a (vals i)) v := by
  induction l with
  | nil => intro v b; rfl
  | cons i t ih =>
    intro v b
    rw [List.foldl_cons, List.foldl_cons]
    by_cases h : vals i > (v, b).1
    · rw [if_pos h, ih, max_eq_right (le_of_lt h)]
    · rw [if_neg h, ih, max_eq_left (not_lt.mp h)]

theorem argfold_of_le (vals : ℕ → ℚ) (l : List ℕ) :
    ∀ (v : ℚ) (b : ℕ), (∀ i ∈ l, vals i ≤ v) →
      l.foldl (fun s i => if vals i > s.1 then (vals i, i) else s) (v, b) = (v, b) := by
  induction l with
  | nil => intro v b _; rfl
  | cons i t ih =>
    intro v b hle
    rw [List.foldl_cons, if_neg (not_lt.mpr (hle i (List.mem_cons_self i t)))]
    exact ih v b (fun j hj => hle j (List.mem_cons_of_mem i hj))

theorem argfold_find (vals : ℕ → ℚ) (l : List ℕ) :
    ∀ (v : ℚ) (b : ℕ), (∃ i ∈ l, v < vals i) →
      l.find? (fun i => decide (vals i = l.foldl (fun a j => max a (vals j)) v))
        = some ((l.foldl (fun s i => if vals i > s.1 then (vals i, i) else s) (v, b)).2) := by
  induction l with
  | nil => rintro v b ⟨i, hi, _⟩; exact absurd hi (List.not_mem_nil i)
  | cons i t ih =>
    intro v b hex
    rw [List.foldl_cons, List.foldl_cons]
    by_cases hi : vals i > (v, b).1
    · rw [if_pos hi]
      have hmax : max v (vals i) = vals i := max_eq_right (le_of_lt hi)
      by_cases hall : ∀ j ∈ t, vals j ≤ vals i
      · have hfold : t.foldl (fun s j => if vals j > s.1 then (vals j, j) else s)
            (vals i, i) = (vals i, i) := argfold_of_le vals t (vals i) i hall
        have hM : t.foldl (fun a j => max a (vals j)) (max v (vals i)) = vals i := by
          rw [hmax]; exact maxfold_of_le vals t (vals i) hall
        rw [hfold]
        exact List.find?_cons_of_pos _ (by simp [hM])
      · push_neg at hall
        obtain ⟨j, hjt, hjgt⟩ := hall
        have hrec := ih (vals i) i ⟨j, hjt, hjgt⟩
        have hMeq : t.foldl (fun a j => max a (vals j)) (max v (vals i))
            = t.foldl (fun a j => max a (vals j)) (vals i) := by rw [hmax]
        have hne : vals i ≠ t.foldl (fun a j => max a (vals j)) (max v (vals i)) := by
          rw [hMeq]
          exact ne_of_lt (lt_of_lt_of_le hjgt (maxfold_ub vals t (vals i) j hjt))
        rw [List.find?_cons_of_neg _ (by simp [hne]), hMeq]
        exact hrec
    · rw [if_neg hi]
      have hvi : vals i ≤ v := not_lt.mp hi
      have hmax : max v (vals i) = v := max_eq_left hvi
      obtain ⟨j, hjmem, hjgt⟩ := hex
      have hjt : j ∈ t := by
        rcases List.mem_cons.mp hjmem with h | h
        · exact absurd (h ▸ hjgt) (not_lt.mpr hvi)
        · exact h
      have hrec := ih v b ⟨j, hjt, hjgt⟩
      have hMeq : t.foldl (fun a j => max a (vals j)) (max v (vals i))
          = t.foldl (fun a j => max a (vals j)) v := by rw [hmax]
      have hne : vals i ≠ t.foldl (fun a j => max a (vals j)) (max v (vals i)) := by
        rw [hMeq]
        exact ne_of_lt (lt_of_le_of_lt hvi
          (lt_of_lt_of_le hjgt (maxfold_ub vals t v j hjt)))
      rw [List.find?_cons_of_neg _ (by simp [hne]), hMeq]
      exact hrec

/-- The backward loop of the sequential backend (seeded with the window's
first element, scanning the whole window under strict `>`) lands exactly
on the spec's `firstArgMax`: the first scanned element attaining the
window maximum. -/
theorem firstArgMax_cons (vals : ℕ → ℚ) (x : ℕ) (t : List ℕ) :
    firstArgMax vals (x :: t)
      = (x :: t).find? (fun i =>
          decide (vals i = t.foldl (fun a j => max a (vals j)) (vals x))) := rfl

theorem argfold_firstArgMax (vals : ℕ → ℚ) (b0 : ℕ) (rest : List ℕ) :
    firstArgMax vals (b0 :: rest)
      = some (((b0 :: rest).foldl (fun s i => if vals i > s.1 then (vals i, i) else s)
          (vals b0, b0)).2) := by
  rw [List.foldl_cons, if_neg (lt_irrefl (vals b0)), firstArgMax_cons]
  by_cases hall : ∀ i ∈ rest, vals i ≤ vals b0
  · rw [argfold_of_le vals rest (vals b0) b0 hall]
    exact List.find?_cons_of_pos _
      (by simp [maxfold_of_le vals rest (vals b0) hall])
  · push_neg at hall
    obtain ⟨j, hjmem, hjgt⟩ := hall
    have hrec := argfold_find vals rest (vals b0) b0 ⟨j, hjmem, hjgt⟩
    have hne : vals b0 ≠ rest.foldl (fun a j => max a (vals j)) (vals b0) :=
      ne_of_lt (lt_of_lt_of_le hjgt (maxfold_ub vals rest (vals b0) j hjmem))
    rw [List.find?_cons_of_neg _ (by simp [hne])]
    exact hrec

/-- The second component of the arg-max scan is the seed or one of the
scanned indices. -/
theorem argfold_snd_mem (vals : ℕ → ℚ) (l : List ℕ) :
    ∀ (v : ℚ) (b : ℕ),
      (l.foldl (fun s i => if vals i > s.1 then (vals i, i) else s) (v, b)).2 = b
        ∨ (l.foldl (fun s i => if vals i > s.1 then (vals i, i) else s) (v, b)).2 ∈ l := by
  induction l with
  | nil => intro v b; exact Or.inl rfl
  | cons i t ih =>
    intro v b
    rw [List.foldl_cons]
    by_cases h : vals i > (v, b).1
    · rw [if_pos h]
      rcases ih (vals i) i with h2 | h2
      · exact Or.inr (by rw [h2]; exact List.mem_cons_self i t)
      · exact Or.inr (List.mem_cons_of_mem i h2)
    · rw [if_neg h]
      rcases ih v b with h2 | h2
      · exact Or.inl h2
      · exact Or.inr (List.mem_cons_of_mem i h2)

/-! ## Lemmas about buffer updates -/

/-- A window scan that repeatedly max-combines into a single cell `m`
equals one update of `m` by the max-fold of the scanned values. -/
theorem foldl_update_max (vals : ℕ → ℚ) (m : ℕ) (l : List ℕ) :
    ∀ buf : ℕ → ℚ,
      l.foldl (fun b i => Function.update b m (max (b m) (vals i))) buf
        = Function.update buf m (l.foldl (fun a i => max a (vals i)) (buf m)) := by
  induction l with
  | nil => intro buf; rw [List.foldl_nil, List.foldl_nil, Function.update_eq_self]
  | cons i t ih =>
    intro buf
    rw [List.foldl_cons, List.foldl_cons, ih, Function.update_idem, Function.update_same]

/-- Accumulating `a` into cell `t` changes index `j` by `a` exactly when
`t = j`. -/
theorem update_add_apply (buf : ℕ → ℚ) (t j : ℕ) (a : ℚ) :
    (Function.update buf t (buf t + a)) j = buf j + (if t = j then a else 0) := by
  by_cases h : j = t
  · subst h
    rw [Function.update_same, if_pos rfl]
  · rw [Function.update_noteq h, if_neg (fun h2 => h h2.symm), add_zero]

/-! ## Index encoding arithmetic -/

theorem encodeCell_eq (pW pH c ph pw : ℕ) :
    encodeCell pW pH c ph pw = pw + pW * (ph + pH * c) := by
  show c * (pW * pH) + (ph * pW + pw) = pw + pW * (ph + pH * c)
  ring

theorem encodeCell_lt {pW pH d c ph pw : ℕ}
    (hc : c < d) (hph : ph < pH) (hpw : pw < pW) :
    encodeCell pW pH c ph pw < pW * pH * d := by
  rw [encodeCell_eq]
  have h1 : ph + pH * c < pH * d := by
    calc ph + pH * c < pH + pH * c := Nat.add_lt_add_right hph _
    _ = pH * (c + 1) := by ring
    _ ≤ pH * d := Nat.mul_le_mul_left pH (Nat.succ_le_of_lt hc)
  calc pw + pW * (ph + pH * c) < pW + pW * (ph + pH * c) := Nat.add_lt_add_right hpw _
  _ = pW * (ph + pH * c + 1) := by ring
  _ ≤ pW * (pH * d) := Nat.mul_le_mul_left pW (Nat.succ_le_of_lt h1)
  _ = pW * pH * d := by ring

theorem encodeCell_inj {pW pH : ℕ} {c ph pw c2 ph2 pw2 : ℕ}
    (hph : ph < pH) (hpw : pw < pW) (hph2 : ph2 < pH) (hpw2 : pw2 < pW)
    (h : encodeCell pW pH c ph pw = encodeCell pW pH c2 ph2 pw2) :
    c = c2 ∧ ph = ph2 ∧ pw = pw2 := by
  rw [encodeCell_eq, encodeCell_eq] at h
  have hpW : 0 < pW := Nat.lt_of_le_of_lt (Nat.zero_le pw) hpw
  have hpw' : pw = pw2 := by
    have := congrArg (· % pW) h
    simpa [Nat.add_mul_mod_self_left, Nat.mod_eq_of_lt hpw, Nat.mod_eq_of_lt hpw2] using this
  have hdiv : ph + pH * c = ph2 + pH * c2 := by
    have := congrArg (· / pW) h
    simpa [Nat.add_mul_div_left _ _ (Nat.lt_of_le_of_lt (Nat.zero_le pw) hpw),
      Nat.div_eq_of_lt hpw, Nat.div_eq_of_lt hpw2] using this
  have hpH : 0 < pH := Nat.lt_of_le_of_lt (Nat.zero_le ph) hph
  have hph' : ph = ph2 := by
    have := congrArg (· % pH) hdiv
    simpa [Nat.add_mul_mod_self_left, Nat.mod_eq_of_lt hph, Nat.mod_eq_of_lt hph2] using this
  have hc' : c = c2 := by
    have := congrArg (· / pH) hdiv
    simpa [Nat.add_mul_div_left _ _ hpH,
      Nat.div_eq_of_lt hph, Nat.div_eq_of_lt hph2] using this
  exact ⟨hc', hph', hpw'⟩

theorem decodeCell {pW pH d j : ℕ} (h : j < pW * pH * d) :
    j % pW < pW ∧ (j / pW) % pH < pH ∧ j / pW / pH < d ∧
      encodeCell pW pH (j / pW / pH) ((j / pW) % pH) (j % pW) = j := by
  have hpW : 0 < pW := by
    rcases Nat.eq_zero_or_pos pW with h0 | h0
    · subst h0; simp at h
    · exact h0
  have hpH : 0 < pH := by
    rcases Nat.eq_zero_or_pos pH with h0 | h0
    · subst h0; simp at h
    · exact h0
  have hc : j / pW / pH < d := by
    rw [Nat.div_div_eq_div_mul]
    rw [Nat.div_lt_iff_lt_mul (Nat.mul_pos hpW hpH)]
    calc j < pW * pH * d := h
    _ = d * (pW * pH) := by ring
  refine ⟨Nat.mod_lt j hpW, Nat.mod_lt _ hpH, hc, ?_⟩
  rw [encodeCell_eq]
  have e2 : pH * (j / pW / pH) + (j / pW) % pH = j / pW := Nat.div_add_mod (j / pW) pH
  have e1 : pW * (j / pW) + j % pW = j := Nat.div_add_mod j pW
  calc j % pW + pW * ((j / pW) % pH + pH * (j / pW / pH))
      = pW * (pH * (j / pW / pH) + (j / pW) % pH) + j % pW := by ring
  _ = pW * (j / pW) + j % pW := by rw [e2]
  _ = j := e1

/-! ## Sum reindexing -/

theorem sum_range_mul_encode (g : ℕ → ℚ) :
    ∀ m n : ℕ, (∑ a in Finset.range m, ∑ b in Finset.range n, g (a * n + b))
      = ∑ i in Finset.range (m * n), g i := by
  intro m
  induction m with
  | zero => intro n; simp
  | succ m ih =>
    intro n
    rw [Finset.sum_range_succ, ih, Nat.succ_mul, Finset.sum_range_add]

theorem sum_encodeCell (f : ℕ → ℚ) (d pH pW : ℕ) :
    (∑ c in Finset.range d, ∑ ph in Finset.range pH, ∑ pw in Finset.range pW,
        f (encodeCell pW pH c ph pw))
      = ∑ i in Finset.range (pW * pH * d), f i := by
  have h1 : (∑ c in Finset.range d, ∑ ph in Finset.range pH, ∑ pw in Finset.range pW,
      f (encodeCell pW pH c ph pw))
      = ∑ c in Finset.range d, ∑ ph in Finset.range pH,
          (fun X => ∑ pw in Finset.range pW, f (X * pW + pw)) (c * pH + ph) := by
    refine Finset.sum_congr rfl (fun c _ => Finset.sum_congr rfl (fun ph _ => ?_))
    refine Finset.sum_congr rfl (fun pw _ => ?_)
    congr 1
    rw [encodeCell_eq]
    ring
  rw [h1, sum_range_mul_encode (fun X => ∑ pw in Finset.range pW, f (X * pW + pw)) d pH,
    sum_range_mul_encode f (d * pH) pW]
  congr 1
  ring

/-! ## Valid geometry: the clipped window is a full k × k block -/

theorem start_add_le {n k s p : ℕ} (hk : k ≤ n) (hp : p < pooledDim n k s) :
    p * s + k ≤ n := by
  have h1 : p ≤ (n - k) / s := Nat.lt_succ_iff.mp hp
  have h2 : p * s ≤ (n - k) / s * s := Nat.mul_le_mul_right s h1
  have h3 : (n - k) / s * s ≤ n - k := Nat.div_mul_le_self _ _
  omega

theorem window_len {n k s p : ℕ} (hk : k ≤ n) (hp : p < pooledDim n k s) :
    min (p * s + k) n - p * s = k := by
  have := start_add_le hk hp
  omega

/-- Under the size invariant, the clipped window of a valid output cell is
exactly the k × k block starting at `(ph*s, pw*s)`. -/
theorem cellScan_valid {W H k s ph pw : ℕ} (hkW : k ≤ W) (hkH : k ≤ H)
    (hph : ph < pooledDim H k s) (hpw : pw < pooledDim W k s) :
    cellScan W H k s ph pw
      = (List.range' (ph * s) k).foldr (fun hh acc =>
          ((List.range' (pw * s) k).map (fun ww => hh * W + ww)) ++ acc) [] := by
  unfold cellScan windowScan
  rw [window_len hkH hph, window_len hkW hpw]

/-- Under the size invariant the window scan starts at the window's
top-left corner `hstart * W + wstart`. -/
theorem cellScan_cons {W H k s ph pw : ℕ} (hk : 1 ≤ k) (hkW : k ≤ W) (hkH : k ≤ H)
    (hph : ph < pooledDim H k s) (hpw : pw < pooledDim W k s) :
    ∃ rest, cellScan W H k s ph pw = (ph * s * W + pw * s) :: rest := by
  rw [cellScan_valid hkW hkH hph hpw]
  obtain ⟨k2, rfl⟩ : ∃ k2, k = k2 + 1 := ⟨k - 1, by omega⟩
  rw [List.range'_succ (ph * s) k2 1, List.foldr_cons,
    List.range'_succ (pw * s) k2 1, List.map_cons, List.cons_append]
  exact ⟨_, rfl⟩

/-- Every index the window scan visits decomposes as `hh * W + ww` with
`(hh, ww)` inside the clipped window bounds. -/
theorem cellScan_mem {W H k s ph pw i : ℕ} (hkW : k ≤ W) (hkH : k ≤ H)
    (hph : ph < pooledDim H k s) (hpw : pw < pooledDim W k s)
    (hi : i ∈ cellScan W H k s ph pw) :
    ∃ hh ww, ph * s ≤ hh ∧ hh + 1 ≤ ph * s + k ∧ pw * s ≤ ww ∧ ww + 1 ≤ pw * s + k ∧
      i = hh * W + ww := by
  rw [cellScan_valid hkW hkH hph hpw] at hi
  obtain ⟨hh, hhmem, ww, hwmem, rfl⟩ := mem_hjoin.mp hi
  obtain ⟨hh1, hh2⟩ := List.mem_range'_1.mp hhmem
  obtain ⟨hw1, hw2⟩ := List.mem_range'_1.mp hwmem
  exact ⟨hh, ww, hh1, by omega, hw1, by omega, rfl⟩

/-- All window accesses stay inside the `W * H` channel plane. -/
theorem cellScan_lt {W H k s ph pw i : ℕ} (hkW : k ≤ W) (hkH : k ≤ H)
    (hph : ph < pooledDim H k s) (hpw : pw < pooledDim W k s)
    (hi : i ∈ cellScan W H k s ph pw) : i < W * H := by
  obtain ⟨hh, ww, _, hh2, _, hw2, rfl⟩ := cellScan_mem hkW hkH hph hpw hi
  have hhH : hh < H := by have := start_add_le hkH hph; omega
  have hwW : ww < W := by have := start_add_le hkW hpw; omega
  calc hh * W + ww < hh * W + W := Nat.add_lt_add_left hwW _
  _ = (hh + 1) * W := by ring
  _ ≤ H * W := Nat.mul_le_mul_right W hhH
  _ = W * H := Nat.mul_comm H W

/-! ## The per-cell window pass as a single buffer update -/

theorem window_update_max (W : ℕ) (vals : ℕ → ℚ) (m hs he ws we : ℕ) :
    ∀ buf : ℕ → ℚ,
      (List.range' hs (he - hs)).foldl (fun b hh =>
        (List.range' ws (we - ws)).foldl (fun b ww =>
          Function.update b m (max (b m) (vals (hh * W + ww)))) b) buf
      = Function.update buf m
          ((windowScan W hs he ws we).foldl (fun a i => max a (vals i)) (buf m)) := by
  intro buf
  have h1 := foldl_windowScan (σ := ℕ → ℚ) W hs he ws we
    (fun b i => Function.update b m (max (b m) (vals i))) buf
  rw [← h1]
  exact foldl_update_max vals m _ buf

/-! ## Master characterisations of the four operators -/

/-- Sequential forward, at the output cell `(c, ph, pw)`: the pooled cell
is the max-fold of its window values over whatever the pooled buffer
already held there. -/
theorem maxPooling_cpu_apply (pooled data : ℕ → ℚ) (W H d k s : ℕ)
    {c ph pw : ℕ} (hc : c < d) (hph : ph < pooledDim H k s) (hpw : pw < pooledDim W k s) :
    maxPooling_cpu pooled data W H d k s
        (encodeCell (pooledDim W k s) (pooledDim H k s) c ph pw)
      = (cellScan W H k s ph pw).foldl (fun a i => max a (data (c * (W * H) + i)))
          (pooled (encodeCell (pooledDim W k s) (pooledDim H k s) c ph pw)) := by
  refine range_foldl_pick _ _
    (fun v => (cellScan W H k s ph pw).foldl (fun a i => max a (data (c * (W * H) + i))) v)
    d c hc ?_ ?_ pooled
  · intro buf c2 hc2 hne
    try simp only []
    refine range_foldl_frame _ _ _ ?_ buf
    intro buf2 ph2 hph2
    try simp only []
    refine range_foldl_frame _ _ _ ?_ buf2
    intro buf3 pw2 hpw2
    try simp only []
    rw [window_update_max W (fun i => data (c2 * (W * H) + i))
      (c2 * (((W - k) / s + 1) * ((H - k) / s + 1)) + (ph2 * ((W - k) / s + 1) + pw2))
      (ph2 * s) (min (ph2 * s + k) H) (pw2 * s) (min (pw2 * s + k) W) buf3]
    refine Function.update_noteq ?_ _ _
    intro hEq
    have hEq2 : encodeCell (pooledDim W k s) (pooledDim H k s) c ph pw
        = encodeCell (pooledDim W k s) (pooledDim H k s) c2 ph2 pw2 := hEq
    exact hne ((encodeCell_inj hph hpw hph2 hpw2 hEq2).1.symm)
  · intro buf
    try simp only []
    refine range_foldl_pick _ _
      (fun v => (cellScan W H k s ph pw).foldl (fun a i => max a (data (c * (W * H) + i))) v)
      _ ph hph ?_ ?_ buf
    · intro buf2 ph2 hph2 hne
      try simp only []
      refine range_foldl_frame _ _ _ ?_ buf2
      intro buf3 pw2 hpw2
      try simp only []
      rw [window_update_max W (fun i => data (c * (W * H) + i))
        (c * (((W - k) / s + 1) * ((H - k) / s + 1)) + (ph2 * ((W - k) / s + 1) + pw2))
        (ph2 * s) (min (ph2 * s + k) H) (pw2 * s) (min (pw2 * s + k) W) buf3]
      refine Function.update_noteq ?_ _ _
      intro hEq
      have hEq2 : encodeCell (pooledDim W k s) (pooledDim H k s) c ph pw
          = encodeCell (pooledDim W k s) (pooledDim H k s) c ph2 pw2 := hEq
      exact hne ((encodeCell_inj hph hpw hph2 hpw2 hEq2).2.1.symm)
    · intro buf2
      try simp only []
      refine range_foldl_pick _ _
        (fun v => (cellScan W H k s ph pw).foldl (fun a i => max a (data (c * (W * H) + i))) v)
        _ pw hpw ?_ ?_ buf2
      · intro buf3 pw2 hpw2 hne
        try simp only []
        rw [window_update_max W (fun i => data (c * (W * H) + i))
          (c * (((W - k) / s + 1) * ((H - k) / s + 1)) + (ph * ((W - k) / s + 1) + pw2))
          (ph * s) (min (ph * s + k) H) (pw2 * s) (min (pw2 * s + k) W) buf3]
        refine Function.update_noteq ?_ _ _
        intro hEq
        have hEq2 : encodeCell (pooledDim W k s) (pooledDim H k s) c ph pw
            = encodeCell (pooledDim W k s) (pooledDim H k s) c ph pw2 := hEq
        exact hne ((encodeCell_inj hph hpw hph hpw2 hEq2).2.2.symm)
      · intro buf3
        try simp only []
        rw [window_update_max W (fun i => data (c * (W * H) + i))
          (c * (((W - k) / s + 1) * ((H - k) / s + 1)) + (ph * ((W - k) / s + 1) + pw))
          (ph * s) (min (ph * s + k) H) (pw * s) (min (pw * s + k) W) buf3]
        exact (Function.update_same _ _ _).trans rfl

/-- Sequential forward: indices at or beyond the pooled volume are left
untouched. -/
theorem maxPooling_cpu_outside (pooled data : ℕ → ℚ) (W H d k s : ℕ) {j : ℕ}
    (hj : pooledDim W k s * pooledDim H k s * d ≤ j) :
    maxPooling_cpu pooled data W H d k s j = pooled j := by
  refine range_foldl_frame _ _ d ?_ pooled
  intro buf c2 hc2
  try simp only []
  refine range_foldl_frame _ _ _ ?_ buf
  intro buf2 ph2 hph2
  try simp only []
  refine range_foldl_frame _ _ _ ?_ buf2
  intro buf3 pw2 hpw2
  try simp only []
  rw [window_update_max W (fun i => data (c2 * (W * H) + i))
    (c2 * (((W - k) / s + 1) * ((H - k) / s + 1)) + (ph2 * ((W - k) / s + 1) + pw2))
    (ph2 * s) (min (ph2 * s + k) H) (pw2 * s) (min (pw2 * s + k) W) buf3]
  refine Function.update_noteq ?_ _ _
  intro hEq
  have hEq2 : j = encodeCell (pooledDim W k s) (pooledDim H k s) c2 ph2 pw2 := hEq
  have hlt := @encodeCell_lt (pooledDim W k s) (pooledDim H k s) d c2 ph2 pw2 hc2 hph2 hpw2
  rw [hEq2] at hj
  exact Nat.lt_irrefl _ (Nat.lt_of_le_of_lt hj hlt)

/-- Parallel forward, at any in-range flat index: the work unit that owns
the slot overwrites it with the max-fold of its decoded window, seeded at
`-FLT_MAX`, regardless of the output buffer's prior contents. -/
theorem maxPooling_gpu_apply (pooled data : ℕ → ℚ) (W H d k s : ℕ) {i : ℕ}
    (hi : i < pooledDim W k s * pooledDim H k s * d) :
    maxPooling_gpu pooled data W H d k s i
      = (cellScan W H k s ((i / pooledDim W k s) % pooledDim H k s)
            (i % pooledDim W k s)).foldl
          (fun a x => max a (data
            ((i / pooledDim W k s / pooledDim H k s / d * d
              + (i / pooledDim W k s / pooledDim H k s) % d) * H * W + x)))
          (-FLT_MAX) := by
  refine range_foldl_pick _ _
    (fun _ => (cellScan W H k s ((i / pooledDim W k s) % pooledDim H k s)
        (i % pooledDim W k s)).foldl
      (fun a x => max a (data
        ((i / pooledDim W k s / pooledDim H k s / d * d
          + (i / pooledDim W k s / pooledDim H k s) % d) * H * W + x)))
      (-FLT_MAX))
    _ i hi ?_ ?_ pooled
  · intro buf i2 hi2 hne
    have hi2l : i2 < ((W - k) / s + 1) * ((H - k) / s + 1) * d := hi2
    simp only [maxPooling_gpu_kernel]
    rw [if_pos hi2l]
    exact Function.update_noteq (fun h => hne h.symm) _ _
  · intro buf
    have hil : i < ((W - k) / s + 1) * ((H - k) / s + 1) * d := hi
    simp only [maxPooling_gpu_kernel]
    rw [if_pos hil, Function.update_same]
    have hflat := foldl_windowScan (σ := ℚ) W
      (i / ((W - k) / s + 1) % ((H - k) / s + 1) * s)
      ((i / ((W - k) / s + 1) % ((H - k) / s + 1) * s + k) ⊓ H)
      (i % ((W - k) / s + 1) * s)
      ((i % ((W - k) / s + 1) * s + k) ⊓ W)
      (fun a x => max a (data
        ((i / ((W - k) / s + 1) / ((H - k) / s + 1) / d * d
          + i / ((W - k) / s + 1) / ((H - k) / s + 1) % d) * H * W + x)))
      (-FLT_MAX)
    rw [← hflat]
    rfl

/-- Parallel forward: indices at or beyond the work count are left
untouched (no work unit owns them). -/
theorem maxPooling_gpu_outside (pooled data : ℕ → ℚ) (W H d k s : ℕ) {j : ℕ}
    (hj : pooledDim W k s * pooledDim H k s * d ≤ j) :
    maxPooling_gpu pooled data W H d k s j = pooled j := by
  refine range_foldl_frame _ _ _ ?_ pooled
  intro buf i2 hi2
  simp only [maxPooling_gpu_kernel]
  rw [if_pos hi2]
  refine Function.update_noteq ?_ _ _
  intro hEq
  rw [hEq] at hj
  exact Nat.lt_irrefl _ (Nat.lt_of_le_of_lt hj hi2)

/-- Sequential backward: at every index `j`, the result is the prior
`dzdx` value plus the sum, over all output cells, of that cell's incoming
gradient when the cell's arg-max target (with channel offset) equals `j`. -/
theorem maxPoolingBackward_cpu_apply (dzdx data dzdy : ℕ → ℚ) (W H d k s : ℕ) (j : ℕ) :
    maxPoolingBackward_cpu dzdx data dzdy W H d k s j
      = dzdx j + ∑ c in Finset.range d, ∑ ph in Finset.range (pooledDim H k s),
          ∑ pw in Finset.range (pooledDim W k s),
            (if c * (W * H) + bestIndexCpu data W H k s c ph pw = j
             then dzdy (encodeCell (pooledDim W k s) (pooledDim H k s) c ph pw) else 0) := by
  refine range_foldl_add _ j
    (fun c => ∑ ph in Finset.range (pooledDim H k s), ∑ pw in Finset.range (pooledDim W k s),
      (if c * (W * H) + bestIndexCpu data W H k s c ph pw = j
       then dzdy (encodeCell (pooledDim W k s) (pooledDim H k s) c ph pw) else 0))
    d ?_ dzdx
  intro buf c2 hc2
  try simp only []
  refine range_foldl_add _ j
    (fun ph => ∑ pw in Finset.range (pooledDim W k s),
      (if c2 * (W * H) + bestIndexCpu data W H k s c2 ph pw = j
       then dzdy (encodeCell (pooledDim W k s) (pooledDim H k s) c2 ph pw) else 0))
    _ ?_ buf
  intro buf2 ph2 hph2
  try simp only []
  refine range_foldl_add _ j
    (fun pw => (if c2 * (W * H) + bestIndexCpu data W H k s c2 ph2 pw = j
       then dzdy (encodeCell (pooledDim W k s) (pooledDim H k s) c2 ph2 pw) else 0))
    _ ?_ buf2
  intro buf3 pw2 hpw2
  try simp only []
  have hflat := foldl_windowScan (σ := ℚ × ℕ) W
    (ph2 * s) ((ph2 * s + k) ⊓ H) (pw2 * s) ((pw2 * s + k) ⊓ W)
    (fun st i => if data (c2 * (W * H) + i) > st.1 then (data (c2 * (W * H) + i), i) else st)
    (data (c2 * (W * H) + (ph2 * s * W + pw2 * s)), ph2 * s * W + pw2 * s)
  rw [← hflat, update_add_apply]
  rfl

/-- Parallel backward: at every index `j`, the result is the prior `dzdx`
value plus the sum over all work units whose (plane-local, never
channel-offset) arg-max equals `j` of their incoming gradient. -/
theorem maxPoolingBackward_gpu_apply (dzdx data dzdy : ℕ → ℚ) (W H d k s : ℕ) (j : ℕ) :
    maxPoolingBackward_gpu dzdx data dzdy W H d k s j
      = dzdx j + ∑ i in Finset.range (pooledDim W k s * pooledDim H k s * d),
          (if bestIndexGpu data W H d k s i = j then dzdy i else 0) := by
  refine range_foldl_add _ j
    (fun i => if bestIndexGpu data W H d k s i = j then dzdy i else 0) _ ?_ dzdx
  intro buf i2 hi2
  have hi2l : i2 < ((W - k) / s + 1) * ((H - k) / s + 1) * d := hi2
  simp only [maxPoolingBackward_gpu_kernel]
  rw [if_pos hi2l]
  have hflat := foldl_windowScan (σ := ℚ × ℕ) W
    (i2 / ((W - k) / s + 1) % ((H - k) / s + 1) * s)
    ((i2 / ((W - k) / s + 1) % ((H - k) / s + 1) * s + k) ⊓ H)
    (i2 % ((W - k) / s + 1) * s)
    ((i2 % ((W - k) / s + 1) * s + k) ⊓ W)
    (fun st x => if data ((i2 / ((W - k) / s + 1) / ((H - k) / s + 1) / d * d
        + i2 / ((W - k) / s + 1) / ((H - k) / s + 1) % d) * H * W + x) > st.1
      then (data ((i2 / ((W - k) / s + 1) / ((H - k) / s + 1) / d * d
        + i2 / ((W - k) / s + 1) / ((H - k) / s + 1) % d) * H * W + x), x) else st)
    (-FLT_MAX, 0)
  rw [← hflat, update_add_apply]
  rfl

/-! ## The spec's concrete scenario (§8.6)

Input volume 4×4, row-major rows `[1,2,5,6]`, `[3,4,7,8]`,
`[9,10,13,14]`, `[11,12,15,16]`, `poolSize = poolStride = 2`: pooled
`= [4,8;12,16]`; backward with `dzdy ≡ 1` puts exactly one `1` at each of
the four arg-max positions and zero elsewhere. -/

theorem scenario_forward_cpu :
    let data : ℕ → ℚ := fun i =>
      [(1:ℚ),2,5,6, 3,4,7,8, 9,10,13,14, 11,12,15,16].getD i 0
    let out := maxPooling_cpu (fun _ => -FLT_MAX) data 4 4 1 2 2
    out 0 = 4 ∧ out 1 = 8 ∧ out 2 = 12 ∧ out 3 = 16 := of_decide_eq_true rfl

theorem scenario_forward_gpu :
    let data : ℕ → ℚ := fun i =>
      [(1:ℚ),2,5,6, 3,4,7,8, 9,10,13,14, 11,12,15,16].getD i 0
    let out := maxPooling_gpu (fun _ => 0) data 4 4 1 2 2
    out 0 = 4 ∧ out 1 = 8 ∧ out 2 = 12 ∧ out 3 = 16 := of_decide_eq_true rfl

theorem scenario_backward_cpu :
    let data : ℕ → ℚ := fun i =>
      [(1:ℚ),2,5,6, 3,4,7,8, 9,10,13,14, 11,12,15,16].getD i 0
    let out := maxPoolingBackward_cpu (fun _ => 0) data (fun _ => 1) 4 4 1 2 2
    out 5 = 1 ∧ out 7 = 1 ∧ out 13 = 1 ∧ out 15 = 1 ∧ out 0 = 0 ∧ out 4 = 0 := by
  refine ⟨?_, ?_, ?_, ?_, rfl, rfl⟩ <;>
    · show (0 : ℚ) + 1 = 1
      norm_num

/-! ## Encode/decode round trips and arg-max bounds -/

theorem encodeCell_decode {pW pH : ℕ} (c : ℕ) {ph pw : ℕ} (hph : ph < pH) (hpw : pw < pW) :
    encodeCell pW pH c ph pw % pW = pw
    ∧ encodeCell pW pH c ph pw / pW % pH = ph
    ∧ encodeCell pW pH c ph pw / pW / pH = c := by
  have hpW : 0 < pW := Nat.lt_of_le_of_lt (Nat.zero_le pw) hpw
  have hpH : 0 < pH := Nat.lt_of_le_of_lt (Nat.zero_le ph) hph
  rw [encodeCell_eq]
  refine ⟨?_, ?_, ?_⟩
  · rw [Nat.add_mul_mod_self_left, Nat.mod_eq_of_lt hpw]
  · rw [Nat.add_mul_div_left _ _ hpW, Nat.div_eq_of_lt hpw, Nat.zero_add,
      Nat.add_mul_mod_self_left, Nat.mod_eq_of_lt hph]
  · rw [Nat.add_mul_div_left _ _ hpW, Nat.div_eq_of_lt hpw, Nat.zero_add,
      Nat.add_mul_div_left _ _ hpH, Nat.div_eq_of_lt hph, Nat.zero_add]

/-- The sequential backward arg-max stays inside the channel plane. -/
theorem bestIndexCpu_lt (data : ℕ → ℚ) (W H k s c ph pw : ℕ)
    (hk : 1 ≤ k) (hkW : k ≤ W) (hkH : k ≤ H)
    (hph : ph < pooledDim H k s) (hpw : pw < pooledDim W k s) :
    bestIndexCpu data W H k s c ph pw < W * H := by
  obtain ⟨rest, hcons⟩ := cellScan_cons hk hkW hkH hph hpw
  have hb0 : ph * s * W + pw * s ∈ cellScan W H k s ph pw := by
    rw [hcons]; exact List.mem_cons_self _ _
  have hmem := argfold_snd_mem (fun i => data (c * (W * H) + i)) (cellScan W H k s ph pw)
    (data (c * (W * H) + (ph * s * W + pw * s))) (ph * s * W + pw * s)
  unfold bestIndexCpu
  rcases hmem with h | h
  · rw [h]; exact cellScan_lt hkW hkH hph hpw hb0
  · exact cellScan_lt hkW hkH hph hpw h

/-- The parallel backward arg-max stays inside one channel plane (it is
never given a channel offset). -/
theorem bestIndexGpu_lt (data : ℕ → ℚ) (W H d k s i : ℕ)
    (hk : 1 ≤ k) (hkW : k ≤ W) (hkH : k ≤ H) :
    bestIndexGpu data W H d k s i < W * H := by
  have hpH : 0 < pooledDim H k s := Nat.succ_pos _
  have hpW : 0 < pooledDim W k s := Nat.succ_pos _
  have hph : (i / pooledDim W k s) % pooledDim H k s < pooledDim H k s := Nat.mod_lt _ hpH
  have hpw : i % pooledDim W k s < pooledDim W k s := Nat.mod_lt _ hpW
  have hWH : 0 < W * H :=
    Nat.mul_pos (Nat.lt_of_lt_of_le hk hkW) (Nat.lt_of_lt_of_le hk hkH)
  have hmem := argfold_snd_mem
    (fun x => data ((i / pooledDim W k s / pooledDim H k s / d * d
      + i / pooledDim W k s / pooledDim H k s % d) * H * W + x))
    (cellScan W H k s ((i / pooledDim W k s) % pooledDim H k s) (i % pooledDim W k s))
    (-FLT_MAX) 0
  unfold bestIndexGpu
  rcases hmem with h | h
  · rw [h]; exact hWH
  · exact cellScan_lt hkW hkH hph hpw h

/-! ## Claim theorems -/

/-- C9: in both parallel kernels, a work unit whose flattened index is at
or beyond the true work count `nthreads` exits immediately: the output
buffer is returned unchanged, and since this holds for arbitrary contents
of every readable buffer (`bottom_data`, `top_diff`), the unit's behaviour
is independent of all memory — it performs no read or write. -/
theorem C9_boundary_guard (nthreads index : ℕ) (h : nthreads ≤ index)
    (bottom_data top_diff top_data bottom_diff : ℕ → ℚ)
    (num channels height width pooled_height pooled_width ksize stride : ℕ) :
    maxPooling_gpu_kernel nthreads bottom_data num channels height width
        pooled_height pooled_width ksize stride top_data index = top_data
    ∧ maxPoolingBackward_gpu_kernel nthreads bottom_data top_diff num channels height
        width pooled_height pooled_width ksize stride bottom_diff index = bottom_diff := by
  constructor
  · unfold maxPooling_gpu_kernel
    rw [if_neg (Nat.not_lt.mpr h)]
  · unfold maxPoolingBackward_gpu_kernel
    rw [if_neg (Nat.not_lt.mpr h)]

theorem C9_boundary_guard_witness :
    5 ≤ 7
    ∧ maxPooling_gpu_kernel 5 (fun _ => 2) 1 3 4 4 2 2 2 2 (fun _ => 9) 7 = (fun _ => 9)
    ∧ maxPoolingBackward_gpu_kernel 5 (fun _ => 2) (fun _ => 1) 1 3 4 4 2 2 2 2
        (fun _ => 9) 7 = (fun _ => 9) :=
  ⟨by decide,
    (C9_boundary_guard 5 7 (by decide) (fun _ => 2) (fun _ => 1) (fun _ => 9) (fun _ => 9)
      1 3 4 4 2 2 2 2).1,
    (C9_boundary_guard 5 7 (by decide) (fun _ => 2) (fun _ => 1) (fun _ => 9) (fun _ => 9)
      1 3 4 4 2 2 2 2).2⟩

/-- C7: for valid geometry and any in-range output cell, the clipped
window is non-empty and lies inside the volume: `hstart < hend ≤ height`,
`wstart < wend ≤ width`, the row-major window scan `cellScan` is
non-empty, every scanned plane-local index is below `width * height`,
every channel-offset data access is below `width * height * depth`, and
the output access `encodeCell` is below the pooled cell count. -/
theorem C7_window_bounds (W H k s : ℕ) (hk : 1 ≤ k) (hs : 1 ≤ s)
    (hkW : k ≤ W) (hkH : k ≤ H) (ph pw : ℕ)
    (hph : ph < pooledDim H k s) (hpw : pw < pooledDim W k s) :
    ph * s < min (ph * s + k) H ∧ min (ph * s + k) H ≤ H
    ∧ pw * s < min (pw * s + k) W ∧ min (pw * s + k) W ≤ W
    ∧ cellScan W H k s ph pw ≠ []
    ∧ (∀ i ∈ cellScan W H k s ph pw, i < W * H)
    ∧ (∀ d c, c < d → ∀ i ∈ cellScan W H k s ph pw, c * (W * H) + i < W * H * d)
    ∧ (∀ d c, c < d → encodeCell (pooledDim W k s) (pooledDim H k s) c ph pw
        < pooledDim W k s * pooledDim H k s * d) := by
  have hH := start_add_le hkH hph
  have hW := start_add_le hkW hpw
  obtain ⟨rest, hcons⟩ := cellScan_cons hk hkW hkH hph hpw
  refine ⟨by omega, by omega, by omega, by omega, ?_, ?_, ?_, ?_⟩
  · rw [hcons]; exact List.cons_ne_nil _ _
  · intro i hi; exact cellScan_lt hkW hkH hph hpw hi
  · intro d c hc i hi
    have h1 := cellScan_lt hkW hkH hph hpw hi
    calc c * (W * H) + i < c * (W * H) + W * H := Nat.add_lt_add_left h1 _
    _ = (c + 1) * (W * H) := by ring
    _ ≤ d * (W * H) := Nat.mul_le_mul_right _ (Nat.succ_le_of_lt hc)
    _ = W * H * d := Nat.mul_comm d (W * H)
  · intro d c hc
    exact encodeCell_lt hc hph hpw

theorem C7_window_bounds_witness :
    (1 ≤ 2 ∧ 1 ≤ 1 ∧ 2 ≤ 3 ∧ 2 ≤ 3 ∧ 1 < pooledDim 3 2 1 ∧ 1 < pooledDim 3 2 1)
    ∧ (1 * 1 < min (1 * 1 + 2) 3 ∧ min (1 * 1 + 2) 3 ≤ 3
      ∧ 1 * 1 < min (1 * 1 + 2) 3 ∧ min (1 * 1 + 2) 3 ≤ 3
      ∧ cellScan 3 3 2 1 1 1 ≠ []
      ∧ (∀ i ∈ cellScan 3 3 2 1 1 1, i < 3 * 3)
      ∧ (∀ d c, c < d → ∀ i ∈ cellScan 3 3 2 1 1 1, c * (3 * 3) + i < 3 * 3 * d)
      ∧ (∀ d c, c < d → encodeCell (pooledDim 3 2 1) (pooledDim 3 2 1) c 1 1
          < pooledDim 3 2 1 * pooledDim 3 2 1 * d)) :=
  ⟨⟨by decide, by decide, by decide, by decide, by decide, by decide⟩,
    C7_window_bounds 3 3 2 1 (by decide) (by decide) (by decide) (by decide) 1 1
      (by decide) (by decide)⟩

/-- C2 counterexample: with `width = height = depth = poolSize =
poolStride = 1`, data identically `0` and a pooled buffer holding `1`,
the sequential forward operator leaves `1` in the output cell, which is
not the window maximum `0` — the claim fails as stated because the
sequential reducer max-combines into whatever the pooled buffer already
holds. -/
theorem C2_counterexample :
    maxPooling_cpu (fun _ => 1) (fun _ => 0) 1 1 1 1 1 0 = 1
    ∧ windowMax (fun i => (fun _ => (0 : ℚ)) (0 * (1 * 1) + i)) (cellScan 1 1 1 1 0 0) = 0
    ∧ (1 : ℚ) ≠ 0 :=
  of_decide_eq_true rfl

/-- C2 (amended): for valid geometry and any output cell, provided the
sequential pooled buffer's prior cell value is at most the cell's window
maximum, and the window maximum is at least `-FLT_MAX` (the parallel
seed), both forward operators write exactly the window maximum, which is
attained by a window element and bounds every window element. -/
theorem C2_amended_forward_max (pooled data : ℕ → ℚ) (W H d k s : ℕ)
    (hk : 1 ≤ k) (hs : 1 ≤ s) (hkW : k ≤ W) (hkH : k ≤ H)
    (c ph pw : ℕ) (hc : c < d) (hph : ph < pooledDim H k s) (hpw : pw < pooledDim W k s)
    (hinit : pooled (encodeCell (pooledDim W k s) (pooledDim H k s) c ph pw)
      ≤ windowMax (fun i => data (c * (W * H) + i)) (cellScan W H k s ph pw))
    (hflt : -FLT_MAX ≤ windowMax (fun i => data (c * (W * H) + i)) (cellScan W H k s ph pw)) :
    maxPooling_cpu pooled data W H d k s
        (encodeCell (pooledDim W k s) (pooledDim H k s) c ph pw)
      = windowMax (fun i => data (c * (W * H) + i)) (cellScan W H k s ph pw)
    ∧ maxPooling_gpu pooled data W H d k s
        (encodeCell (pooledDim W k s) (pooledDim H k s) c ph pw)
      = windowMax (fun i => data (c * (W * H) + i)) (cellScan W H k s ph pw)
    ∧ (∃ i ∈ cellScan W H k s ph pw,
        windowMax (fun i => data (c * (W * H) + i)) (cellScan W H k s ph pw)
          = data (c * (W * H) + i))
    ∧ (∀ i ∈ cellScan W H k s ph pw,
        data (c * (W * H) + i)
          ≤ windowMax (fun i => data (c * (W * H) + i)) (cellScan W H k s ph pw)) := by
  obtain ⟨rest, hcons⟩ := cellScan_cons hk hkW hkH hph hpw
  obtain ⟨hdec1, hdec2, hdec3⟩ :=
    @encodeCell_decode (pooledDim W k s) (pooledDim H k s) c ph pw hph hpw
  refine ⟨?_, ?_, ?_, ?_⟩
  · rw [maxPooling_cpu_apply pooled data W H d k s hc hph hpw, hcons, maxfold_cons,
      windowMax_cons]
    refine max_eq_right ?_
    rw [hcons, windowMax_cons] at hinit
    exact hinit
  · have henclt := encodeCell_lt hc hph hpw
    rw [maxPooling_gpu_apply pooled data W H d k s henclt, hdec1, hdec2, hdec3,
      Nat.mod_eq_of_lt hc, Nat.div_eq_of_lt hc]
    have hbase : (0 * d + c) * H * W = c * (W * H) := by ring
    rw [hbase, hcons, maxfold_cons, windowMax_cons]
    refine max_eq_right ?_
    rw [hcons, windowMax_cons] at hflt
    exact hflt
  · rw [hcons]
    exact windowMax_mem _ _ _
  · rw [hcons]
    exact windowMax_ub _ _ _

theorem C2_amended_forward_max_witness :
    ((fun _ => (0 : ℚ)) (encodeCell (pooledDim 2 2 1) (pooledDim 2 2 1) 0 0 0)
        ≤ windowMax (fun i => (fun x => [(1 : ℚ), 5, 3, 2].getD x 0) (0 * (2 * 2) + i))
            (cellScan 2 2 2 1 0 0)
      ∧ -FLT_MAX ≤ windowMax (fun i => (fun x => [(1 : ℚ), 5, 3, 2].getD x 0) (0 * (2 * 2) + i))
            (cellScan 2 2 2 1 0 0))
    ∧ (maxPooling_cpu (fun _ => 0) (fun x => [(1 : ℚ), 5, 3, 2].getD x 0) 2 2 1 2 1
          (encodeCell (pooledDim 2 2 1) (pooledDim 2 2 1) 0 0 0)
        = windowMax (fun i => (fun x => [(1 : ℚ), 5, 3, 2].getD x 0) (0 * (2 * 2) + i))
            (cellScan 2 2 2 1 0 0)
      ∧ maxPooling_gpu (fun _ => 0) (fun x => [(1 : ℚ), 5, 3, 2].getD x 0) 2 2 1 2 1
          (encodeCell (pooledDim 2 2 1) (pooledDim 2 2 1) 0 0 0)
        = windowMax (fun i => (fun x => [(1 : ℚ), 5, 3, 2].getD x 0) (0 * (2 * 2) + i))
            (cellScan 2 2 2 1 0 0)
      ∧ (∃ i ∈ cellScan 2 2 2 1 0 0,
          windowMax (fun i => (fun x => [(1 : ℚ), 5, 3, 2].getD x 0) (0 * (2 * 2) + i))
              (cellScan 2 2 2 1 0 0)
            = (fun x => [(1 : ℚ), 5, 3, 2].getD x 0) (0 * (2 * 2) + i))
      ∧ (∀ i ∈ cellScan 2 2 2 1 0 0,
          (fun x => [(1 : ℚ), 5, 3, 2].getD x 0) (0 * (2 * 2) + i)
            ≤ windowMax (fun i => (fun x => [(1 : ℚ), 5, 3, 2].getD x 0) (0 * (2 * 2) + i))
                (cellScan 2 2 2 1 0 0))) :=
  ⟨⟨of_decide_eq_true rfl, of_decide_eq_true rfl⟩,
    C2_amended_forward_max (fun _ => 0) (fun x => [(1 : ℚ), 5, 3, 2].getD x 0) 2 2 1 2 1
      (by decide) (by decide) (by decide) (by decide) 0 0 0
      (by decide) (by decide) (by decide)
      (of_decide_eq_true rfl) (of_decide_eq_true rfl)⟩

/-- C3 counterexample: on the same one-cell input volume (data ≡ 0) the
two forward backends disagree when the sequential pooled buffer holds a
stale `1`: the sequential operator keeps `1` (it max-combines into the
existing buffer) while the parallel operator overwrites with the window
maximum `0`.  The outputs are not bit-identical. -/
theorem C3_counterexample :
    maxPooling_cpu (fun _ => 1) (fun _ => 0) 1 1 1 1 1 0 = 1
    ∧ maxPooling_gpu (fun _ => 1) (fun _ => 0) 1 1 1 1 1 0 = 0
    ∧ (1 : ℚ) ≠ 0 :=
  of_decide_eq_true rfl

/-- C3 (amended): for valid geometry, the two forward backends produce
identical pooled volumes provided the sequential backend's pooled buffer
is pre-initialised to the parallel backend's seed `-FLT_MAX` in every
cell (then both compute the same max-fold seeded at `-FLT_MAX`); the
parallel output is independent of its own buffer's prior contents. -/
theorem C3_amended_forward_equiv (pooled data : ℕ → ℚ) (W H d k s : ℕ)
    (hk : 1 ≤ k) (hs : 1 ≤ s) (hkW : k ≤ W) (hkH : k ≤ H) :
    ∀ j, j < pooledDim W k s * pooledDim H k s * d →
      maxPooling_cpu (fun _ => -FLT_MAX) data W H d k s j
        = maxPooling_gpu pooled data W H d k s j := by
  intro j hj
  obtain ⟨hpw, hph, hc, henc⟩ := decodeCell hj
  have hcpu := maxPooling_cpu_apply (fun _ => -FLT_MAX) data W H d k s hc hph hpw
  rw [henc] at hcpu
  rw [hcpu, maxPooling_gpu_apply pooled data W H d k s hj]
  have h1 : j / pooledDim W k s / pooledDim H k s % d
      = j / pooledDim W k s / pooledDim H k s := Nat.mod_eq_of_lt hc
  have h2 : j / pooledDim W k s / pooledDim H k s / d = 0 := Nat.div_eq_of_lt hc
  rw [h1, h2]
  have h3 : (0 * d + j / pooledDim W k s / pooledDim H k s) * H * W
      = j / pooledDim W k s / pooledDim H k s * (W * H) := by ring
  rw [h3]

theorem C3_amended_forward_equiv_witness :
    (1 ≤ 2 ∧ 1 ≤ 2 ∧ 2 ≤ 4 ∧ 2 ≤ 4)
    ∧ ∀ j, j < pooledDim 4 2 2 * pooledDim 4 2 2 * 1 →
      maxPooling_cpu (fun _ => -FLT_MAX)
          (fun i => [(1 : ℚ), 2, 5, 6, 3, 4, 7, 8, 9, 10, 13, 14, 11, 12, 15, 16].getD i 0)
          4 4 1 2 2 j
        = maxPooling_gpu (fun _ => 0)
            (fun i => [(1 : ℚ), 2, 5, 6, 3, 4, 7, 8, 9, 10, 13, 14, 11, 12, 15, 16].getD i 0)
            4 4 1 2 2 j :=
  ⟨⟨by decide, by decide, by decide, by decide⟩,
    C3_amended_forward_equiv (fun _ => 0)
      (fun i => [(1 : ℚ), 2, 5, 6, 3, 4, 7, 8, 9, 10, 13, 14, 11, 12, 15, 16].getD i 0)
      4 4 1 2 2 (by decide) (by decide) (by decide) (by decide)⟩

/-- C10 counterexample: the sequential forward output is not independent
of the pooled buffer's initial contents: on the same one-cell input
(data ≡ 0), starting from a zeroed buffer yields `0` but starting from a
buffer holding `1` yields `1`. -/
theorem C10_counterexample :
    maxPooling_cpu (fun _ => 0) (fun _ => 0) 1 1 1 1 1 0 = 0
    ∧ maxPooling_cpu (fun _ => 1) (fun _ => 0) 1 1 1 1 1 0 = 1
    ∧ (0 : ℚ) ≠ 1 :=
  of_decide_eq_true rfl

/-- C10 (amended): the sequential forward output is independent of the
pooled buffer's initial contents provided every initial cell value is at
most that cell's window maximum (for example when the buffer is
pre-seeded with `-FLT_MAX` or negative infinity, as §4.2 prescribes):
any two such initial buffers yield identical pooled volumes. -/
theorem C10_amended_initial_buffer (data pooled1 pooled2 : ℕ → ℚ) (W H d k s : ℕ)
    (hk : 1 ≤ k) (hs : 1 ≤ s) (hkW : k ≤ W) (hkH : k ≤ H)
    (hle1 : ∀ c, c < d → ∀ ph, ph < pooledDim H k s → ∀ pw, pw < pooledDim W k s →
      pooled1 (encodeCell (pooledDim W k s) (pooledDim H k s) c ph pw)
        ≤ windowMax (fun i => data (c * (W * H) + i)) (cellScan W H k s ph pw))
    (hle2 : ∀ c, c < d → ∀ ph, ph < pooledDim H k s → ∀ pw, pw < pooledDim W k s →
      pooled2 (encodeCell (pooledDim W k s) (pooledDim H k s) c ph pw)
        ≤ windowMax (fun i => data (c * (W * H) + i)) (cellScan W H k s ph pw)) :
    ∀ j, j < pooledDim W k s * pooledDim H k s * d →
      maxPooling_cpu pooled1 data W H d k s j = maxPooling_cpu pooled2 data W H d k s j := by
  intro j hj
  obtain ⟨hpw, hph, hc, henc⟩ := decodeCell hj
  have h1 := maxPooling_cpu_apply pooled1 data W H d k s hc hph hpw
  have h2 := maxPooling_cpu_apply pooled2 data W H d k s hc hph hpw
  rw [henc] at h1 h2
  obtain ⟨rest, hcons⟩ := cellScan_cons hk hkW hkH hph hpw
  have hb1 := hle1 _ hc _ hph _ hpw
  have hb2 := hle2 _ hc _ hph _ hpw
  rw [henc, hcons, windowMax_cons] at hb1 hb2
  rw [h1, h2, hcons, maxfold_cons, maxfold_cons, max_eq_right hb1, max_eq_right hb2]

theorem C10_amended_initial_buffer_witness :
    ((∀ c, c < 1 → ∀ ph, ph < pooledDim 1 1 1 → ∀ pw, pw < pooledDim 1 1 1 →
        (fun _ => (0 : ℚ)) (encodeCell (pooledDim 1 1 1) (pooledDim 1 1 1) c ph pw)
          ≤ windowMax (fun i => (fun _ => (5 : ℚ)) (c * (1 * 1) + i)) (cellScan 1 1 1 1 ph pw))
      ∧ (∀ c, c < 1 → ∀ ph, ph < pooledDim 1 1 1 → ∀ pw, pw < pooledDim 1 1 1 →
        (fun _ => (-1 : ℚ)) (encodeCell (pooledDim 1 1 1) (pooledDim 1 1 1) c ph pw)
          ≤ windowMax (fun i => (fun _ => (5 : ℚ)) (c * (1 * 1) + i)) (cellScan 1 1 1 1 ph pw)))
    ∧ ∀ j, j < pooledDim 1 1 1 * pooledDim 1 1 1 * 1 →
        maxPooling_cpu (fun _ => 0) (fun _ => 5) 1 1 1 1 1 j
          = maxPooling_cpu (fun _ => -1) (fun _ => 5) 1 1 1 1 1 j :=
  ⟨⟨of_decide_eq_true rfl, of_decide_eq_true rfl⟩,
    C10_amended_initial_buffer (fun _ => 5) (fun _ => 0) (fun _ => -1) 1 1 1 1 1
      (by decide) (by decide) (by decide) (by decide)
      (of_decide_eq_true rfl) (of_decide_eq_true rfl)⟩

/-- The sequential backward loop's arg-max equals the spec's
`firstArgMax`: the first window element, in row-major scan order,
attaining the window maximum. -/
theorem bestIndexCpu_firstArgMax (data : ℕ → ℚ) (W H k s c ph pw : ℕ)
    (hk : 1 ≤ k) (hkW : k ≤ W) (hkH : k ≤ H)
    (hph : ph < pooledDim H k s) (hpw : pw < pooledDim W k s) :
    firstArgMax (fun i => data (c * (W * H) + i)) (cellScan W H k s ph pw)
      = some (bestIndexCpu data W H k s c ph pw) := by
  obtain ⟨rest, hcons⟩ := cellScan_cons hk hkW hkH hph hpw
  unfold bestIndexCpu
  rw [hcons]
  exact argfold_firstArgMax (fun i => data (c * (W * H) + i)) (ph * s * W + pw * s) rest

/-- C5: the sequential backward operator adds, for each output cell, the
cell's `dzdy` value into `dzdx` exactly at the channel-offset arg-max
location of that cell's window, with ties resolved in favour of the
first maximal element in row-major scan order (rows outer, columns
inner, strict `>`): the result at every index `j` is the prior value
plus the sum of the gradients of the cells whose `firstArgMax` is `j`. -/
theorem C5_backward_cpu_argmax (dzdx data dzdy : ℕ → ℚ) (W H d k s : ℕ)
    (hk : 1 ≤ k) (hs : 1 ≤ s) (hkW : k ≤ W) (hkH : k ≤ H) (j : ℕ) :
    maxPoolingBackward_cpu dzdx data dzdy W H d k s j
      = dzdx j + ∑ c in Finset.range d, ∑ ph in Finset.range (pooledDim H k s),
          ∑ pw in Finset.range (pooledDim W k s),
            ((firstArgMax (fun i => data (c * (W * H) + i)) (cellScan W H k s ph pw)).elim 0
              (fun b => if c * (W * H) + b = j
                then dzdy (encodeCell (pooledDim W k s) (pooledDim H k s) c ph pw) else 0)) := by
  rw [maxPoolingBackward_cpu_apply dzdx data dzdy W H d k s j]
  congr 1
  refine Finset.sum_congr rfl (fun c hcmem => ?_)
  refine Finset.sum_congr rfl (fun ph hphmem => ?_)
  refine Finset.sum_congr rfl (fun pw hpwmem => ?_)
  rw [bestIndexCpu_firstArgMax data W H k s c ph pw hk hkW hkH
    (Finset.mem_range.mp hphmem) (Finset.mem_range.mp hpwmem)]
  rfl

theorem C5_backward_cpu_argmax_witness :
    (1 ≤ 2 ∧ 1 ≤ 2 ∧ 2 ≤ 4 ∧ 2 ≤ 4)
    ∧ maxPoolingBackward_cpu (fun _ => 0)
        (fun i => [(1 : ℚ), 2, 5, 6, 3, 4, 7, 8, 9, 10, 13, 14, 11, 12, 15, 16].getD i 0)
        (fun _ => 1) 4 4 1 2 2 5
      = (fun _ => (0 : ℚ)) 5
          + ∑ c in Finset.range 1, ∑ ph in Finset.range (pooledDim 4 2 2),
              ∑ pw in Finset.range (pooledDim 4 2 2),
                ((firstArgMax (fun i =>
                    (fun x => [(1 : ℚ), 2, 5, 6, 3, 4, 7, 8, 9, 10, 13, 14, 11, 12, 15, 16].getD x 0)
                      (c * (4 * 4) + i)) (cellScan 4 4 2 2 ph pw)).elim 0
                  (fun b => if c * (4 * 4) + b = 5
                    then (fun _ => (1 : ℚ))
                      (encodeCell (pooledDim 4 2 2) (pooledDim 4 2 2) c ph pw) else 0)) :=
  ⟨⟨by decide, by decide, by decide, by decide⟩,
    C5_backward_cpu_argmax (fun _ => 0)
      (fun x => [(1 : ℚ), 2, 5, 6, 3, 4, 7, 8, 9, 10, 13, 14, 11, 12, 15, 16].getD x 0)
      (fun _ => 1) 4 4 1 2 2 (by decide) (by decide) (by decide) (by decide) 5⟩

/-- C4: gradient mass conservation for both backends: a backward call
increases the total of `dzdx` over the whole input volume by exactly the
total of `dzdy` over the whole pooled volume, because each output cell's
gradient is added to exactly one in-bounds `dzdx` location.  (At the
exact rational scalar model, "up to floating-point addition order" is an
equality.) -/
theorem C4_mass_conservation (dzdx data dzdy : ℕ → ℚ) (W H d k s : ℕ)
    (hk : 1 ≤ k) (hs : 1 ≤ s) (hkW : k ≤ W) (hkH : k ≤ H) :
    (∑ j in Finset.range (W * H * d), maxPoolingBackward_cpu dzdx data dzdy W H d k s j)
      = (∑ j in Finset.range (W * H * d), dzdx j)
        + (∑ i in Finset.range (pooledDim W k s * pooledDim H k s * d), dzdy i)
    ∧ (∑ j in Finset.range (W * H * d), maxPoolingBackward_gpu dzdx data dzdy W H d k s j)
      = (∑ j in Finset.range (W * H * d), dzdx j)
        + (∑ i in Finset.range (pooledDim W k s * pooledDim H k s * d), dzdy i) := by
  constructor
  · rw [Finset.sum_congr rfl
      (fun j _ => maxPoolingBackward_cpu_apply dzdx data dzdy W H d k s j)]
    rw [Finset.sum_add_distrib]
    congr 1
    have hswap : (∑ j in Finset.range (W * H * d), ∑ c in Finset.range d,
        ∑ ph in Finset.range (pooledDim H k s), ∑ pw in Finset.range (pooledDim W k s),
          (if c * (W * H) + bestIndexCpu data W H k s c ph pw = j
           then dzdy (encodeCell (pooledDim W k s) (pooledDim H k s) c ph pw) else 0))
        = ∑ c in Finset.range d, ∑ ph in Finset.range (pooledDim H k s),
            ∑ pw in Finset.range (pooledDim W k s), ∑ j in Finset.range (W * H * d),
              (if c * (W * H) + bestIndexCpu data W H k s c ph pw = j
               then dzdy (encodeCell (pooledDim W k s) (pooledDim H k s) c ph pw) else 0) := by
      rw [Finset.sum_comm]
      refine Finset.sum_congr rfl (fun c _ => ?_)
      rw [Finset.sum_comm]
      refine Finset.sum_congr rfl (fun ph _ => ?_)
      rw [Finset.sum_comm]
    rw [hswap]
    have hkey : ∀ c ∈ Finset.range d, ∀ ph ∈ Finset.range (pooledDim H k s),
        ∀ pw ∈ Finset.range (pooledDim W k s),
        (∑ j in Finset.range (W * H * d),
          (if c * (W * H) + bestIndexCpu data W H k s c ph pw = j
           then dzdy (encodeCell (pooledDim W k s) (pooledDim H k s) c ph pw) else 0))
          = dzdy (encodeCell (pooledDim W k s) (pooledDim H k s) c ph pw) := by
      intro c hcm ph hphm pw hpwm
      have hc := Finset.mem_range.mp hcm
      have hph := Finset.mem_range.mp hphm
      have hpw := Finset.mem_range.mp hpwm
      have hb := bestIndexCpu_lt data W H k s c ph pw hk hkW hkH hph hpw
      have htgt : c * (W * H) + bestIndexCpu data W H k s c ph pw < W * H * d := by
        calc c * (W * H) + bestIndexCpu data W H k s c ph pw
            < c * (W * H) + W * H := Nat.add_lt_add_left hb _
        _ = (c + 1) * (W * H) := by ring
        _ ≤ d * (W * H) := Nat.mul_le_mul_right _ (Nat.succ_le_of_lt hc)
        _ = W * H * d := Nat.mul_comm d (W * H)
      rw [Finset.sum_ite_eq (Finset.range (W * H * d))
        (c * (W * H) + bestIndexCpu data W H k s c ph pw)
        (fun _ => dzdy (encodeCell (pooledDim W k s) (pooledDim H k s) c ph pw))]
      rw [if_pos (Finset.mem_range.mpr htgt)]
    rw [Finset.sum_congr rfl (fun c hcm => Finset.sum_congr rfl (fun ph hphm =>
      Finset.sum_congr rfl (fun pw hpwm => hkey c hcm ph hphm pw hpwm)))]
    exact sum_encodeCell dzdy d (pooledDim H k s) (pooledDim W k s)
  · rw [Finset.sum_congr rfl
      (fun j _ => maxPoolingBackward_gpu_apply dzdx data dzdy W H d k s j)]
    rw [Finset.sum_add_distrib]
    congr 1
    rw [Finset.sum_comm]
    refine Finset.sum_congr rfl (fun i him => ?_)
    have hi := Finset.mem_range.mp him
    have hd : 0 < d := by
      rcases Nat.eq_zero_or_pos d with h0 | h0
      · subst h0; simp at hi
      · exact h0
    have hb := bestIndexGpu_lt data W H d k s i hk hkW hkH
    have htgt : bestIndexGpu data W H d k s i < W * H * d :=
      Nat.lt_of_lt_of_le hb (Nat.le_mul_of_pos_right _ hd)
    rw [Finset.sum_ite_eq (Finset.range (W * H * d)) (bestIndexGpu data W H d k s i)
      (fun _ => dzdy i)]
    rw [if_pos (Finset.mem_range.mpr htgt)]

theorem C4_mass_conservation_witness :
    (1 ≤ 2 ∧ 1 ≤ 1 ∧ 2 ≤ 3 ∧ 2 ≤ 3)
    ∧ (∑ j in Finset.range (3 * 3 * 2),
        maxPoolingBackward_cpu (fun _ => 0)
          (fun x => [(4 : ℚ), 2, 1, 3, 9, 9, 5, 6, 7, 1, 1, 2, 3, 5, 8, 1, 1, 2].getD x 0)
          (fun i => [(1 : ℚ), 2, 3, 4, 5, 6, 7, 8].getD i 0) 3 3 2 2 1 j)
      = (∑ j in Finset.range (3 * 3 * 2), (fun _ => (0 : ℚ)) j)
        + (∑ i in Finset.range (pooledDim 3 2 1 * pooledDim 3 2 1 * 2),
            (fun x => [(1 : ℚ), 2, 3, 4, 5, 6, 7, 8].getD x 0) i)
    ∧ (∑ j in Finset.range (3 * 3 * 2),
        maxPoolingBackward_gpu (fun _ => 0)
          (fun x => [(4 : ℚ), 2, 1, 3, 9, 9, 5, 6, 7, 1, 1, 2, 3, 5, 8, 1, 1, 2].getD x 0)
          (fun i => [(1 : ℚ), 2, 3, 4, 5, 6, 7, 8].getD i 0) 3 3 2 2 1 j)
      = (∑ j in Finset.range (3 * 3 * 2), (fun _ => (0 : ℚ)) j)
        + (∑ i in Finset.range (pooledDim 3 2 1 * pooledDim 3 2 1 * 2),
            (fun x => [(1 : ℚ), 2, 3, 4, 5, 6, 7, 8].getD x 0) i) :=
  ⟨⟨by decide, by decide, by decide, by decide⟩,
    (C4_mass_conservation (fun _ => 0)
      (fun x => [(4 : ℚ), 2, 1, 3, 9, 9, 5, 6, 7, 1, 1, 2, 3, 5, 8, 1, 1, 2].getD x 0)
      (fun i => [(1 : ℚ), 2, 3, 4, 5, 6, 7, 8].getD i 0) 3 3 2 2 1
      (by decide) (by decide) (by decide) (by decide)).1,
    (C4_mass_conservation (fun _ => 0)
      (fun x => [(4 : ℚ), 2, 1, 3, 9, 9, 5, 6, 7, 1, 1, 2, 3, 5, 8, 1, 1, 2].getD x 0)
      (fun i => [(1 : ℚ), 2, 3, 4, 5, 6, 7, 8].getD i 0) 3 3 2 2 1
      (by decide) (by decide) (by decide) (by decide)).2⟩

/-- C6: the shape law.  Both pooled dimensions are computed as
`(extent - poolSize)/poolStride + 1` by integer floor division, and all
four operators agree on the resulting pooled geometry: both forward
operators write nothing at or beyond `pooledWidth * pooledHeight * depth`,
and both backward operators read `dzdy` only below that count (replacing
`dzdy` beyond it cannot change any result). -/
theorem C6_shape_law (W H d k s : ℕ) (hk : 1 ≤ k) (hs : 1 ≤ s)
    (hkW : k ≤ W) (hkH : k ≤ H) :
    pooledDim W k s = (W - k) / s + 1
    ∧ pooledDim H k s = (H - k) / s + 1
    ∧ (∀ pooled data : ℕ → ℚ, ∀ j, pooledDim W k s * pooledDim H k s * d ≤ j →
        maxPooling_cpu pooled data W H d k s j = pooled j)
    ∧ (∀ pooled data : ℕ → ℚ, ∀ j, pooledDim W k s * pooledDim H k s * d ≤ j →
        maxPooling_gpu pooled data W H d k s j = pooled j)
    ∧ (∀ dzdx data dzdy1 dzdy2 : ℕ → ℚ,
        (∀ i, i < pooledDim W k s * pooledDim H k s * d → dzdy1 i = dzdy2 i) →
        ∀ j, maxPoolingBackward_cpu dzdx data dzdy1 W H d k s j
          = maxPoolingBackward_cpu dzdx data dzdy2 W H d k s j)
    ∧ (∀ dzdx data dzdy1 dzdy2 : ℕ → ℚ,
        (∀ i, i < pooledDim W k s * pooledDim H k s * d → dzdy1 i = dzdy2 i) →
        ∀ j, maxPoolingBackward_gpu dzdx data dzdy1 W H d k s j
          = maxPoolingBackward_gpu dzdx data dzdy2 W H d k s j) := by
  refine ⟨rfl, rfl, ?_, ?_, ?_, ?_⟩
  · intro pooled data j hj
    exact maxPooling_cpu_outside pooled data W H d k s hj
  · intro pooled data j hj
    exact maxPooling_gpu_outside pooled data W H d k s hj
  · intro dzdx data dzdy1 dzdy2 hagree j
    rw [maxPoolingBackward_cpu_apply dzdx data dzdy1 W H d k s j,
      maxPoolingBackward_cpu_apply dzdx data dzdy2 W H d k s j]
    congr 1
    refine Finset.sum_congr rfl (fun c hcm => Finset.sum_congr rfl (fun ph hphm =>
      Finset.sum_congr rfl (fun pw hpwm => ?_)))
    rw [hagree _ (encodeCell_lt (Finset.mem_range.mp hcm)
      (Finset.mem_range.mp hphm) (Finset.mem_range.mp hpwm))]
  · intro dzdx data dzdy1 dzdy2 hagree j
    rw [maxPoolingBackward_gpu_apply dzdx data dzdy1 W H d k s j,
      maxPoolingBackward_gpu_apply dzdx data dzdy2 W H d k s j]
    congr 1
    refine Finset.sum_congr rfl (fun i him => ?_)
    rw [hagree _ (Finset.mem_range.mp him)]

theorem C6_shape_law_witness :
    (1 ≤ 2 ∧ 1 ≤ 2 ∧ 2 ≤ 5 ∧ 2 ≤ 5)
    ∧ (pooledDim 5 2 2 = (5 - 2) / 2 + 1
      ∧ pooledDim 5 2 2 = (5 - 2) / 2 + 1
      ∧ (∀ pooled data : ℕ → ℚ, ∀ j, pooledDim 5 2 2 * pooledDim 5 2 2 * 3 ≤ j →
          maxPooling_cpu pooled data 5 5 3 2 2 j = pooled j)
      ∧ (∀ pooled data : ℕ → ℚ, ∀ j, pooledDim 5 2 2 * pooledDim 5 2 2 * 3 ≤ j →
          maxPooling_gpu pooled data 5 5 3 2 2 j = pooled j)
      ∧ (∀ dzdx data dzdy1 dzdy2 : ℕ → ℚ,
          (∀ i, i < pooledDim 5 2 2 * pooledDim 5 2 2 * 3 → dzdy1 i = dzdy2 i) →
          ∀ j, maxPoolingBackward_cpu dzdx data dzdy1 5 5 3 2 2 j
            = maxPoolingBackward_cpu dzdx data dzdy2 5 5 3 2 2 j)
      ∧ (∀ dzdx data dzdy1 dzdy2 : ℕ → ℚ,
          (∀ i, i < pooledDim 5 2 2 * pooledDim 5 2 2 * 3 → dzdy1 i = dzdy2 i) →
          ∀ j, maxPoolingBackward_gpu dzdx data dzdy1 5 5 3 2 2 j
            = maxPoolingBackward_gpu dzdx data dzdy2 5 5 3 2 2 j)) :=
  ⟨⟨by decide, by decide, by decide, by decide⟩,
    C6_shape_law 5 5 3 2 2 (by decide) (by decide) (by decide) (by decide)⟩

/-- C8 counterexample: for the double-precision instantiation the claim
fails: the kernels seed the running maximum with `-FLT_MAX` (the smallest
finite single-precision value), which is neither negative infinity nor
the smallest representable double.  On a one-cell double volume holding
`-DBL_MAX` (a representable double below `-FLT_MAX`), the parallel
forward operator outputs the seed `-FLT_MAX` instead of the window
maximum `-DBL_MAX`; a seed of negative infinity or of the smallest
representable double would have produced `-DBL_MAX`. -/
theorem C8_counterexample :
    maxPooling_gpu (fun _ => 0) (fun _ => -DBL_MAX) 1 1 1 1 1 0 = -FLT_MAX
    ∧ -DBL_MAX < -FLT_MAX
    ∧ -FLT_MAX ≠ -DBL_MAX :=
  of_decide_eq_true rfl

/-- C8 (amended): in the parallel forward operator each work unit's
running maximum is seeded with `-FLT_MAX` — the smallest finite value of
the *single-precision* type, used for both scalar instantiations — and
is never read from the output buffer: each in-range output cell equals
the max-fold of its window seeded at `-FLT_MAX`, independently of the
output buffer's initial contents. -/
theorem C8_amended_seed (pooled1 pooled2 data : ℕ → ℚ) (W H d k s i : ℕ)
    (hi : i < pooledDim W k s * pooledDim H k s * d) :
    maxPooling_gpu pooled1 data W H d k s i
      = (cellScan W H k s ((i / pooledDim W k s) % pooledDim H k s)
            (i % pooledDim W k s)).foldl
          (fun a x => max a (data
            ((i / pooledDim W k s / pooledDim H k s / d * d
              + (i / pooledDim W k s / pooledDim H k s) % d) * H * W + x)))
          (-FLT_MAX)
    ∧ maxPooling_gpu pooled1 data W H d k s i = maxPooling_gpu pooled2 data W H d k s i := by
  constructor
  · exact maxPooling_gpu_apply pooled1 data W H d k s hi
  · rw [maxPooling_gpu_apply pooled1 data W H d k s hi,
      maxPooling_gpu_apply pooled2 data W H d k s hi]

theorem C8_amended_seed_witness :
    0 < pooledDim 1 1 1 * pooledDim 1 1 1 * 1
    ∧ maxPooling_gpu (fun _ => 7) (fun _ => 3) 1 1 1 1 1 0
        = (cellScan 1 1 1 1 0 0).foldl (fun a _ => max a 3) (-FLT_MAX)
    ∧ maxPooling_gpu (fun _ => 7) (fun _ => 3) 1 1 1 1 1 0
        = maxPooling_gpu (fun _ => 123) (fun _ => 3) 1 1 1 1 1 0 :=
  ⟨by decide,
    (C8_amended_seed (fun _ => 7) (fun _ => 123) (fun _ => 3) 1 1 1 1 1 0 (by decide)).1,
    (C8_amended_seed (fun _ => 7) (fun _ => 123) (fun _ => 3) 1 1 1 1 1 0 (by decide)).2⟩

/-- C1 (code bug): at `width = height = 1`, `depth = 2`,
`poolSize = poolStride = 1`, data ≡ 0, `dzdy ≡ 1`, zeroed `dzdx`, the
parallel backward operator accumulates both channels' gradients at index
`0` (result `[2, 0]`) while the sequential backward operator yields
`[1, 1]`: the kernel advances `bottom_data` by the channel base
`(n*channels+c)*height*width` but applies the plane-local `bestIndex` to
`bottom_diff` without that offset, so every channel's gradient lands in
channel 0's plane. -/
theorem C1_bug_eval :
    maxPoolingBackward_gpu (fun _ => 0) (fun _ => 0) (fun _ => 1) 1 1 2 1 1 0 = 2
    ∧ maxPoolingBackward_gpu (fun _ => 0) (fun _ => 0) (fun _ => 1) 1 1 2 1 1 1 = 0
    ∧ maxPoolingBackward_cpu (fun _ => 0) (fun _ => 0) (fun _ => 1) 1 1 2 1 1 0 = 1
    ∧ maxPoolingBackward_cpu (fun _ => 0) (fun _ => 0) (fun _ => 1) 1 1 2 1 1 1 = 1 := by
  refine ⟨?_, rfl, ?_, ?_⟩
  · show (0 : ℚ) + 1 + 1 = 2
    norm_num
  · show (0 : ℚ) + 1 = 1
    norm_num
  · show (0 : ℚ) + 1 = 1
    norm_num
